import Mathlib

/-!
# Verification of the ticket-blockchain ledger (`src/final.py`)

Shallow embedding of the ledger engine: `TicketTransaction`, `Block` with its
canonical-JSON SHA-256 hashing, the proof-of-work search, and the
`TicketBlockchain` facade (chain, pending pool, ticket registry).

Modelling conventions:
* Python `time.time()` values are modelled as caller-supplied natural-number
  clock readings (the spec's claims never depend on the value of a timestamp,
  only on hashing being a deterministic function of the stored fields); their
  JSON rendering is the decimal numeral.
* `uuid.uuid4()` in `issue_ticket` is modelled as a caller-supplied ticket-id
  string; its global uniqueness is a hypothesis where a claim needs it.
* The `while` loop of `proof_of_work` carries no termination argument in the
  source, so the model gives it explicit fuel and returns `Option`; fuel
  exhaustion is a model artifact that never occurs in the source behaviour.
* Machine-level 32-bit words are `Nat` with explicit `% 4294967296`.
-/

/-! ## SHA-256 over byte lists (FIPS 180-4), words as `Nat` mod 2^32 -/

/-- The 64 SHA-256 round constants. -/
def sha256K : List Nat :=
  [1116352408, 1899447441, 3049323471, 3921009573, 961987163, 1508970993,
   2453635748, 2870763221, 3624381080, 310598401, 607225278, 1426881987,
   1925078388, 2162078206, 2614888103, 3248222580, 3835390401, 4022224774,
   264347078, 604807628, 770255983, 1249150122, 1555081692, 1996064986,
   2554220882, 2821834349, 2952996808, 3210313671, 3336571891, 3584528711,
   113926993, 338241895, 666307205, 773529912, 1294757372, 1396182291,
   1695183700, 1986661051, 2177026350, 2456956037, 2730485921, 2820302411,
   3259730800, 3345764771, 3516065817, 3600352804, 4094571909, 275423344,
   430227734, 506948616, 659060556, 883997877, 958139571, 1322822218,
   1537002063, 1747873779, 1955562222, 2024104815, 2227730452, 2361852424,
   2428436474, 2756734187, 3204031479, 3329325298]

/-- The eight SHA-256 initial hash values. -/
def sha256init : List Nat :=
  [1779033703, 3144134277, 1013904242, 2773480762,
   1359893119, 2600822924, 528734635, 1541459225]

/-- Right rotation of a 32-bit word represented as a `Nat` below `2^32`. -/
def rotr32 (n x : Nat) : Nat := ((x >>> n) ||| (x <<< (32 - n))) % 4294967296

/-- SHA-256 `Ch(x,y,z)`; `¬x` is complement inside 32 bits. -/
def shaCh (x y z : Nat) : Nat := (x &&& y) ^^^ ((x ^^^ 4294967295) &&& z)

/-- SHA-256 `Maj(x,y,z)`. -/
def shaMaj (x y z : Nat) : Nat := (x &&& y) ^^^ (x &&& z) ^^^ (y &&& z)

/-- SHA-256 `Σ₀`. -/
def shaBig0 (x : Nat) : Nat := rotr32 2 x ^^^ rotr32 13 x ^^^ rotr32 22 x

/-- SHA-256 `Σ₁`. -/
def shaBig1 (x : Nat) : Nat := rotr32 6 x ^^^ rotr32 11 x ^^^ rotr32 25 x

/-- SHA-256 `σ₀`. -/
def shaSml0 (x : Nat) : Nat := rotr32 7 x ^^^ rotr32 18 x ^^^ (x >>> 3)

/-- SHA-256 `σ₁`. -/
def shaSml1 (x : Nat) : Nat := rotr32 17 x ^^^ rotr32 19 x ^^^ (x >>> 10)

/-- The 64-bit big-endian byte rendering of the message bit length. -/
def lenBytes8 (n : Nat) : List Nat :=
  [n / 72057594037927936 % 256, n / 281474976710656 % 256,
   n / 1099511627776 % 256, n / 4294967296 % 256,
   n / 16777216 % 256, n / 65536 % 256, n / 256 % 256, n % 256]

/-- FIPS 180-4 §5.1.1 padding: append `0x80`, zeros to 56 mod 64, then the
64-bit big-endian bit length. -/
def padMessage (msg : List Nat) : List Nat :=
  msg ++ [128] ++ List.replicate ((119 - msg.length % 64) % 64) 0
      ++ lenBytes8 (msg.length * 8)

/-- Group bytes into big-endian 32-bit words. -/
def bytesToWords : List Nat → List Nat
  | b0 :: b1 :: b2 :: b3 :: rest =>
      (((b0 * 256 + b1) * 256 + b2) * 256 + b3) :: bytesToWords rest
  | _ => []

/-- Extend a 16-word message block to the 64-word schedule, pushing `k` more
words (`k = 48` at the call site). -/
def scheduleExtend : Array Nat → Nat → Array Nat
  | w, 0 => w
  | w, k + 1 =>
      let i := w.size
      scheduleExtend
        (w.push ((shaSml1 (w.getD (i - 2) 0) + w.getD (i - 7) 0 +
                  shaSml0 (w.getD (i - 15) 0) + w.getD (i - 16) 0) % 4294967296)) k

/-- One run through the 64 compression rounds, state as an 8-tuple of words. -/
def sha256rounds :
    List (Nat × Nat) →
    Nat × Nat × Nat × Nat × Nat × Nat × Nat × Nat →
    Nat × Nat × Nat × Nat × Nat × Nat × Nat × Nat
  | [], s => s
  | (kc, wt) :: rest, (a, b, c, d, e, f, g, h) =>
      let t1 := (h + shaBig1 e + shaCh e f g + kc + wt) % 4294967296
      let t2 := (shaBig0 a + shaMaj a b c) % 4294967296
      sha256rounds rest ((t1 + t2) % 4294967296, a, b, c, (d + t1) % 4294967296, e, f, g)

/-- Compress one 16-word block into the running 8-word state. -/
def sha256compress (st : List Nat) (w16 : List Nat) : List Nat :=
  let w := (scheduleExtend w16.toArray 48).toList
  match st with
  | [a0, b0, c0, d0, e0, f0, g0, h0] =>
      let (a, b, c, d, e, f, g, h) :=
        sha256rounds (sha256K.zip w) (a0, b0, c0, d0, e0, f0, g0, h0)
      [(a0 + a) % 4294967296, (b0 + b) % 4294967296, (c0 + c) % 4294967296,
       (d0 + d) % 4294967296, (e0 + e) % 4294967296, (f0 + f) % 4294967296,
       (g0 + g) % 4294967296, (h0 + h) % 4294967296]
  | _ => st

/-- Split the word stream into 16-word message blocks. -/
def wordsToBlocks : List Nat → List (List Nat)
  | w0 :: w1 :: w2 :: w3 :: w4 :: w5 :: w6 :: w7 ::
    w8 :: w9 :: w10 :: w11 :: w12 :: w13 :: w14 :: w15 :: rest =>
      [w0, w1, w2, w3, w4, w5, w6, w7, w8, w9, w10, w11, w12, w13, w14, w15] ::
        wordsToBlocks rest
  | _ => []

/-- Fold the compression function over the padded message, 16 words at a time. -/
def sha256blocksGo (st : List Nat) (ws : List Nat) : List Nat :=
  (wordsToBlocks ws).foldl sha256compress st

/-- Lowercase hex digit for a value below 16. -/
def hexDigitChar (n : Nat) : Char :=
  if n < 10 then Char.ofNat (48 + n) else Char.ofNat (87 + n)

/-- Eight lowercase hex characters of one 32-bit word, big-endian. -/
def wordHex (x : Nat) : List Char :=
  [hexDigitChar (x / 268435456 % 16), hexDigitChar (x / 16777216 % 16),
   hexDigitChar (x / 1048576 % 16), hexDigitChar (x / 65536 % 16),
   hexDigitChar (x / 4096 % 16), hexDigitChar (x / 256 % 16),
   hexDigitChar (x / 16 % 16), hexDigitChar (x % 16)]

/-- Model of `hashlib.sha256(bytes).hexdigest()`: the 64-character lowercase hex digest. -/
def sha256hex (msg : List Nat) : String :=
  String.mk (((sha256blocksGo sha256init (bytesToWords (padMessage msg))).map wordHex).flatten)

/-- FIPS 180-4 test vector: digest of the three ASCII bytes of `abc`. -/
theorem sha256hex_abc :
    sha256hex (("abc").data.map Char.toNat) =
      ("ba7816bf8f01cfea414140de5dae2223b00361a396177a9cb410ff61f20015ad") := by
  decide

/-! ## Canonical JSON serialization (`json.dumps(..., sort_keys=True)`) -/

/-- Four lowercase hex digits, for `\uXXXX` escapes. -/
def hex4 (n : Nat) : List Char :=
  [hexDigitChar (n / 4096 % 16), hexDigitChar (n / 256 % 16),
   hexDigitChar (n / 16 % 16), hexDigitChar (n % 16)]

/-- Escaping of one character as CPython's `json.dumps` does with its default
`ensure_ascii=True`: `"` and `\` get a backslash, the five short control
escapes are used, every other control or non-ASCII character becomes
`\uXXXX` (a surrogate pair above `0xFFFF`). -/
def jsonEscapeChar (c : Char) : List Char :=
  let n := c.toNat
  if n = 34 then ['\\', '"']
  else if n = 92 then ['\\', '\\']
  else if n = 8 then ['\\', 'b']
  else if n = 9 then ['\\', 't']
  else if n = 10 then ['\\', 'n']
  else if n = 12 then ['\\', 'f']
  else if n = 13 then ['\\', 'r']
  else if n < 32 ∨ n > 126 then
    if n < 65536 then '\\' :: 'u' :: hex4 n
    else ('\\' :: 'u' :: hex4 (55296 + (n - 65536) / 1024)) ++
         ('\\' :: 'u' :: hex4 (56320 + (n - 65536) % 1024))
  else [c]

/-- A JSON string literal with its quotes. -/
def jsonString (s : String) : List Char :=
  '"' :: ((s.data.map jsonEscapeChar).flatten ++ ['"'])

/-- A JSON value for an optional string: `null` for Python `None`. -/
def jsonOptionString : Option String → List Char
  | none => ("null").data
  | some s => jsonString s

/-- The decimal numeral of a natural number (the JSON rendering of the
model's clock readings, indices and nonces). -/
def jsonNat (n : Nat) : List Char := Nat.toDigits 10 n

/-! ## Data model -/

/-- Model of `TicketTransaction.__init__`: one immutable ticket event.  `event` is
`None` except for `issue`, `new_owner` is `None` except for `transfer`. -/
structure TicketTransaction where
  tx_type : String
  ticket_id : String
  owner : String
  event : Option String
  new_owner : Option String
  timestamp : Nat
deriving DecidableEq

/-- Model of `Block`: a batch of transactions plus linkage metadata.  In the source the
`hash` attribute appears only once assigned (genesis construction and
`mine`); the model carries it as a field that `compute_hash` never reads,
with `""` as the not-yet-assigned placeholder. -/
structure Block where
  index : Nat
  transactions : List TicketTransaction
  timestamp : Nat
  previous_hash : String
  nonce : Nat
  hash : String
deriving DecidableEq

/-- Rendering of `tx.to_dict()` serialized by `json.dumps(..., sort_keys=True)`: keys in
sorted order `event, new_owner, owner, ticket_id, timestamp, tx_type`,
separators `", "` and `": "`. -/
def txJson (tx : TicketTransaction) : List Char :=
  ("\x7b\"event\": ").data ++ jsonOptionString tx.event
    ++ (", \"new_owner\": ").data ++ jsonOptionString tx.new_owner
    ++ (", \"owner\": ").data ++ jsonString tx.owner
    ++ (", \"ticket_id\": ").data ++ jsonString tx.ticket_id
    ++ (", \"timestamp\": ").data ++ jsonNat tx.timestamp
    ++ (", \"tx_type\": ").data ++ jsonString tx.tx_type
    ++ ("\x7d").data

/-- The `block_string` of `Block.compute_hash`: the five hashed fields with
keys in sorted order `index, nonce, previous_hash, timestamp, transactions`. -/
def blockString (b : Block) : List Char :=
  ("\x7b\"index\": ").data ++ jsonNat b.index
    ++ (", \"nonce\": ").data ++ jsonNat b.nonce
    ++ (", \"previous_hash\": ").data ++ jsonString b.previous_hash
    ++ (", \"timestamp\": ").data ++ jsonNat b.timestamp
    ++ (", \"transactions\": [").data
    ++ List.intercalate ((", ").data) (b.transactions.map txJson)
    ++ ("]\x7d").data

/-- Model of `Block.compute_hash`: SHA-256 hex digest of the canonical serialization
(serialization is pure ASCII thanks to `ensure_ascii` escaping, so UTF-8
encoding is the identity on character codes). -/
def compute_hash (b : Block) : String :=
  sha256hex ((blockString b).map Char.toNat)

/-- Cross-checked against CPython: `compute_hash` of the genesis block built
at clock reading 1 (matches `hashlib.sha256(json.dumps(...))` there). -/
theorem compute_hash_genesis_vector :
    compute_hash ⟨0, [], 1, ("0"), 0, ("")⟩ =
      ("847cefb8988c3bf6233e7e9acbac6c181535885ecf87f448ad0ffcc17eff1ddb") := by
  decide

/-! ## The `TicketBlockchain` ledger -/

/-- One registry entry: the Python dict
`\x7b"owner": ..., "status": ..., "event": ...\x7d` kept per ticket. -/
structure Ticket where
  owner : String
  status : String
  event : String
deriving DecidableEq

/-- Model of `self.tickets.get(ticket_id)` on the insertion-ordered dict, modelled as
an association list: first (unique) matching key wins. -/
def lookupTicket : List (String × Ticket) → String → Option Ticket
  | [], _ => none
  | (k, v) :: rest, tid => if k = tid then some v else lookupTicket rest tid

/-- Model of `self.tickets[ticket_id] = t` on the insertion-ordered dict: replace in
place when the key exists, append otherwise. -/
def setTicket : List (String × Ticket) → String → Ticket → List (String × Ticket)
  | [], tid, t => [(tid, t)]
  | (k, v) :: rest, tid, t =>
      if k = tid then (tid, t) :: rest else (k, v) :: setTicket rest tid t

/-- The mutable state of a `TicketBlockchain` instance. -/
structure LedgerState where
  chain : List Block
  pending_transactions : List TicketTransaction
  tickets : List (String × Ticket)
deriving DecidableEq

/-- The constant `TicketBlockchain.difficulty = 2`. -/
def difficulty : Nat := 2

/-- The target `"0" * difficulty`, the required hash target. -/
def zeroTarget : String := String.mk (List.replicate difficulty '0')

/-- Character-list prefix test (the meaning of Python's `str.startswith`). -/
def startsWithChars : List Char → List Char → Bool
  | [], _ => true
  | _ :: _, [] => false
  | c :: cs, d :: ds => (c = d) && startsWithChars cs ds

/-- The test `computed_hash.startswith("0" * self.difficulty)`. -/
def goodHash (h : String) : Bool := startsWithChars zeroTarget.data h.data

/-- Model of `create_genesis_block`: `Block(0, [], "0")` whose `hash` attribute is
assigned its own `compute_hash`; `gts` is the clock reading of its
construction. -/
def create_genesis_block (gts : Nat) : Block :=
  let g : Block := ⟨0, [], gts, ("0"), 0, ("")⟩
  { g with hash := compute_hash g }

/-- Model of `TicketBlockchain.__init__`: empty pending pool and registry, chain
holding only the genesis block. -/
def initState (gts : Nat) : LedgerState :=
  ⟨[create_genesis_block gts], [], []⟩

/-- Model of `add_transaction`: append to the pending pool. -/
def add_transaction (st : LedgerState) (tx : TicketTransaction) : LedgerState :=
  { st with pending_transactions := st.pending_transactions ++ [tx] }

/-- The hash of `block` with its `nonce` attribute set to `n` (each iteration
of the `proof_of_work` loop recomputes exactly this). -/
def hashAtNonce (b : Block) (n : Nat) : String :=
  compute_hash { b with nonce := n }

/-- The `while` loop of `proof_of_work`, searching upward from `nonce`; the
`fuel` bound is a model artifact (the source loops unboundedly). Returns the
satisfying nonce together with its hash. -/
def powLoop (b : Block) : Nat → Nat → Option (Nat × String)
  | nonce, 0 =>
      let h := hashAtNonce b nonce
      if goodHash h then some (nonce, h) else none
  | nonce, fuel + 1 =>
      let h := hashAtNonce b nonce
      if goodHash h then some (nonce, h) else powLoop b (nonce + 1) fuel

/-- Model of `proof_of_work`: reset `block.nonce = 0`, then increment until the hash
has the `difficulty`-zeros prefix; yields the final nonce and that hash. -/
def proof_of_work (b : Block) (fuel : Nat) : Option (Nat × String) :=
  powLoop b 0 fuel

/-- The result of `mine`: Python's `False` (pool empty) or the new block. -/
inductive MineResult where
  | nothingToMine
  | mined (b : Block)
deriving DecidableEq

/-- Model of `mine`: `False` when the pending pool is empty; otherwise build
`Block(len(chain), pending, chain[-1].compute_hash())`, run the
proof-of-work (assigning final nonce and hash), append it and clear the
pool.  `ts` is the new block's clock reading; `none` is returned only for
the two model-artifact cases that cannot occur in source behaviour (fuel
exhaustion; the always-nonempty chain being empty). -/
def mine (st : LedgerState) (ts fuel : Nat) : Option (MineResult × LedgerState) :=
  if st.pending_transactions = [] then some (.nothingToMine, st)
  else
    match st.chain.getLast? with
    | none => none
    | some last =>
        let base : Block :=
          ⟨st.chain.length, st.pending_transactions, ts, compute_hash last, 0, ("")⟩
        match proof_of_work base fuel with
        | none => none
        | some (n, h) =>
            let b : Block := { base with nonce := n, hash := h }
            some (.mined b, { st with chain := st.chain ++ [b],
                                      pending_transactions := [] })

/-- Model of `issue_ticket`: build the `issue` transaction, append it to the pool,
create the registry entry, return the ticket id.  `tid` models the fresh
`uuid.uuid4()` string and `ts` the transaction's clock reading. -/
def issue_ticket (st : LedgerState) (tid owner event : String) (ts : Nat) :
    String × LedgerState :=
  let tx : TicketTransaction := ⟨("issue"), tid, owner, some event, none, ts⟩
  let st1 := add_transaction st tx
  (tid, { st1 with tickets := setTicket st1.tickets tid ⟨owner, ("valid"), event⟩ })

/-- Model of `transfer_ticket`: fail (returning `False`, mutating nothing) unless the
ticket exists with status `"valid"`; otherwise record a `transfer`
transaction carrying the pre-change owner and update the registry owner. -/
def transfer_ticket (st : LedgerState) (tid new_owner : String) (ts : Nat) :
    Bool × LedgerState :=
  match lookupTicket st.tickets tid with
  | none => (false, st)
  | some ticket =>
      if ticket.status ≠ ("valid") then (false, st)
      else
        let tx : TicketTransaction :=
          ⟨("transfer"), tid, ticket.owner, none, some new_owner, ts⟩
        let st1 := add_transaction st tx
        (true, { st1 with tickets := setTicket st1.tickets tid { ticket with owner := new_owner } })

/-- Model of `redeem_ticket`: same precondition pattern as transfer; records a
`redeem` transaction and sets the status to `"redeemed"`. -/
def redeem_ticket (st : LedgerState) (tid : String) (ts : Nat) :
    Bool × LedgerState :=
  match lookupTicket st.tickets tid with
  | none => (false, st)
  | some ticket =>
      if ticket.status ≠ ("valid") then (false, st)
      else
        let tx : TicketTransaction :=
          ⟨("redeem"), tid, ticket.owner, none, none, ts⟩
        let st1 := add_transaction st tx
        (true, { st1 with tickets := setTicket st1.tickets tid { ticket with status := ("redeemed") } })

/-- Model of `verify_ticket`: read-only registry lookup (`None` when absent). -/
def verify_ticket (st : LedgerState) (tid : String) : Option Ticket :=
  lookupTicket st.tickets tid

/-! ## Operation traces -/

/-- One external ledger operation, with the nondeterministic inputs (clock
readings, the uuid of an issue, mining fuel) made explicit. -/
inductive Op where
  | issue (tid owner event : String) (ts : Nat)
  | transfer (tid new_owner : String) (ts : Nat)
  | redeem (tid : String) (ts : Nat)
  | mineOp (ts fuel : Nat)
  | verify (tid : String)
deriving DecidableEq

/-- The state after one operation.  A fuel-exhausted `mine` (model artifact,
impossible in source behaviour) is the call not happening. -/
def step (st : LedgerState) : Op → LedgerState
  | .issue tid owner event ts => (issue_ticket st tid owner event ts).2
  | .transfer tid new_owner ts => (transfer_ticket st tid new_owner ts).2
  | .redeem tid ts => (redeem_ticket st tid ts).2
  | .mineOp ts fuel =>
      match mine st ts fuel with
      | some (_, st2) => st2
      | none => st
  | .verify _ => st

/-- The state after a sequence of operations. -/
def run (st : LedgerState) (ops : List Op) : LedgerState := ops.foldl step st

/-! ## Helper lemmas: registry, projections, proof-of-work -/

theorem lookupTicket_setTicket_self (m : List (String × Ticket)) (tid : String) (t : Ticket) :
    lookupTicket (setTicket m tid t) tid = some t := by
  induction m with
  | nil => simp [setTicket, lookupTicket]
  | cons kv rest ih =>
      obtain ⟨k, v⟩ := kv
      by_cases hk : k = tid
      · simp [setTicket, lookupTicket, hk]
      · simp [setTicket, lookupTicket, hk, ih]

theorem lookupTicket_setTicket_ne (m : List (String × Ticket)) (tid tid2 : String)
    (t : Ticket) (h : tid2 ≠ tid) :
    lookupTicket (setTicket m tid t) tid2 = lookupTicket m tid2 := by
  induction m with
  | nil =>
      have hne : ¬(tid = tid2) := fun hh => h hh.symm
      simp [setTicket, lookupTicket, hne]
  | cons kv rest ih =>
      obtain ⟨k, v⟩ := kv
      by_cases hk : k = tid
      · subst hk
        have hne : ¬(k = tid2) := fun hh => h (hh.symm.trans rfl)
        simp [setTicket, lookupTicket, hne]
      · simp only [setTicket, if_neg hk, lookupTicket]
        by_cases hk2 : k = tid2 <;> simp [hk2, ih]

theorem compute_hash_hash_irrel (b : Block) (s : String) :
    compute_hash { b with hash := s } = compute_hash b := by
  cases b; rfl

theorem hashAtNonce_nonce_irrel (b : Block) (k n : Nat) :
    hashAtNonce { b with nonce := k } n = hashAtNonce b n := by
  cases b; rfl

theorem issue_ticket_chain (st : LedgerState) (tid owner event : String) (ts : Nat) :
    ((issue_ticket st tid owner event ts).2).chain = st.chain := rfl

theorem transfer_ticket_chain (st : LedgerState) (tid new_owner : String) (ts : Nat) :
    ((transfer_ticket st tid new_owner ts).2).chain = st.chain := by
  unfold transfer_ticket
  cases lookupTicket st.tickets tid with
  | none => rfl
  | some t =>
      by_cases hs : t.status ≠ ("valid") <;> simp [hs, add_transaction]

theorem redeem_ticket_chain (st : LedgerState) (tid : String) (ts : Nat) :
    ((redeem_ticket st tid ts).2).chain = st.chain := by
  unfold redeem_ticket
  cases lookupTicket st.tickets tid with
  | none => rfl
  | some t =>
      by_cases hs : t.status ≠ ("valid") <;> simp [hs, add_transaction]

theorem mine_tickets_eq (st : LedgerState) (ts fuel : Nat) (r : MineResult)
    (st2 : LedgerState) (hm : mine st ts fuel = some (r, st2)) :
    st2.tickets = st.tickets := by
  simp only [mine] at hm
  split at hm
  · simp at hm
    obtain ⟨-, h2⟩ := hm
    subst h2; rfl
  · split at hm
    · simp at hm
    · split at hm
      · simp at hm
      · simp at hm
        obtain ⟨-, h2⟩ := hm
        subst h2; rfl

/-- What a successful run of the proof-of-work loop guarantees: the returned
nonce is at least the starting one, the returned string is the hash at that
nonce, it meets the difficulty target, and no nonce from the start up to the
returned one does. -/
theorem powLoop_spec (b : Block) (fuel : Nat) :
    ∀ nonce n h, powLoop b nonce fuel = some (n, h) →
      nonce ≤ n ∧ h = hashAtNonce b n ∧ goodHash h = true ∧
      ∀ m, nonce ≤ m → m < n → goodHash (hashAtNonce b m) = false := by
  induction fuel with
  | zero =>
      intro nonce n h hp
      cases hg : goodHash (hashAtNonce b nonce) with
      | true =>
          simp [powLoop, hg] at hp
          obtain ⟨rfl, rfl⟩ := hp
          exact ⟨Nat.le_refl _, rfl, hg, fun m h1 h2 => absurd h1 (by omega)⟩
      | false => simp [powLoop, hg] at hp
  | succ fuel ih =>
      intro nonce n h hp
      cases hg : goodHash (hashAtNonce b nonce) with
      | true =>
          simp [powLoop, hg] at hp
          obtain ⟨rfl, rfl⟩ := hp
          exact ⟨Nat.le_refl _, rfl, hg, fun m h1 h2 => absurd h1 (by omega)⟩
      | false =>
          simp [powLoop, hg] at hp
          obtain ⟨h1, h2, h3, h4⟩ := ih (nonce + 1) n h hp
          refine ⟨by omega, h2, h3, ?_⟩
          intro m hm1 hm2
          rcases Nat.eq_or_lt_of_le hm1 with rfl | hlt
          · exact hg
          · exact h4 m (by omega) hm2

/-- The proof-of-work search is insensitive to the nonce the block arrives
with: the loop overwrites it with its own counter starting at 0. -/
theorem powLoop_nonce_irrel (b : Block) (k : Nat) (fuel : Nat) :
    ∀ nonce, powLoop { b with nonce := k } nonce fuel = powLoop b nonce fuel := by
  induction fuel with
  | zero => intro nonce; simp [powLoop, hashAtNonce_nonce_irrel]
  | succ fuel ih => intro nonce; simp [powLoop, hashAtNonce_nonce_irrel, ih]


/-- The function `compute_hash` never reads the `hash` field. -/
theorem compute_hash_mk_hash (i : Nat) (txs : List TicketTransaction) (ts : Nat)
    (p : String) (n : Nat) (h1 h2 : String) :
    compute_hash ⟨i, txs, ts, p, n, h1⟩ = compute_hash ⟨i, txs, ts, p, n, h2⟩ := rfl

/-- Hashing a mk-literal block at an overridden nonce. -/
theorem hashAtNonce_mk (i : Nat) (txs : List TicketTransaction) (ts : Nat)
    (p h0 : String) (n : Nat) :
    hashAtNonce ⟨i, txs, ts, p, 0, h0⟩ n = compute_hash ⟨i, txs, ts, p, n, h0⟩ := rfl

/-- What a `mine` call that produced a block did: the block was built over
`Block(len(chain), pending, chain[-1].compute_hash())`, got the nonce and
hash found by the proof-of-work, was appended, and the pool was cleared. -/
theorem mine_mined_spec (st : LedgerState) (ts fuel : Nat) (b : Block) (st2 : LedgerState)
    (hm : mine st ts fuel = some (.mined b, st2)) :
    ∃ last n hsh,
      st.chain.getLast? = some last ∧
      proof_of_work ⟨st.chain.length, st.pending_transactions, ts,
                     compute_hash last, 0, ("")⟩ fuel = some (n, hsh) ∧
      b = ⟨st.chain.length, st.pending_transactions, ts, compute_hash last, n, hsh⟩ ∧
      st2 = { st with chain := st.chain ++ [b], pending_transactions := [] } := by
  by_cases hpe : st.pending_transactions = []
  · simp [mine, hpe] at hm
  · cases hlast : st.chain.getLast? with
    | none => simp [mine, hpe, hlast] at hm
    | some last =>
        simp only [mine, if_neg hpe, hlast] at hm
        cases hpow : proof_of_work ⟨st.chain.length, st.pending_transactions, ts,
            compute_hash last, 0, ("")⟩ fuel with
        | none => rw [hpow] at hm; simp at hm
        | some p =>
            obtain ⟨n, hsh⟩ := p
            rw [hpow] at hm
            simp at hm
            obtain ⟨hb, hst⟩ := hm
            exact ⟨last, n, hsh, rfl, hpow, hb.symm, by rw [← hst, hb]⟩

/-! ## The chain invariants (hash-matches-content, linkage, difficulty) -/

/-- Spec `validate()`-style check, part 1: every stored `hash` equals the
recomputed `compute_hash` of the block's stored fields. -/
def hashesOk (c : List Block) : Bool :=
  c.all (fun b => b.hash == compute_hash b)

/-- Spec `validate()`-style check, part 2: every adjacent pair is linked, the
later block's `previous_hash` being the hash of the earlier block. -/
def linksOk : List Block → Bool
  | b1 :: b2 :: rest => (b2.previous_hash == compute_hash b1) && linksOk (b2 :: rest)
  | _ => true

/-- Both chain-integrity invariants of the spec at once. -/
def chainOk (c : List Block) : Bool := hashesOk c && linksOk c

/-- Every non-genesis block (everything after index 0) hashes under the
difficulty target. -/
def minedOk : List Block → Bool
  | [] => true
  | _ :: rest => rest.all (fun b => goodHash (compute_hash b))

theorem hashesOk_append (c : List Block) (b : Block)
    (hc : hashesOk c = true) (hb : b.hash = compute_hash b) :
    hashesOk (c ++ [b]) = true := by
  simp [hashesOk] at hc ⊢
  exact ⟨hc, hb⟩

theorem linksOk_append (c : List Block) (last b : Block)
    (hc : linksOk c = true) (hl : c.getLast? = some last)
    (hb : b.previous_hash = compute_hash last) :
    linksOk (c ++ [b]) = true := by
  induction c with
  | nil => simp at hl
  | cons x xs ih =>
      cases xs with
      | nil =>
          simp [List.getLast?] at hl
          subst hl
          simp [linksOk, hb]
      | cons y ys =>
          simp only [linksOk, Bool.and_eq_true, beq_iff_eq] at hc
          have hl2 : (y :: ys).getLast? = some last := by
            rw [← hl]; rfl
          have htail := ih hc.2 hl2
          simp only [List.cons_append, linksOk, Bool.and_eq_true, beq_iff_eq]
          exact ⟨hc.1, htail⟩

theorem minedOk_append (c : List Block) (b : Block)
    (hc : minedOk c = true) (hne : c ≠ []) (hb : goodHash (compute_hash b) = true) :
    minedOk (c ++ [b]) = true := by
  cases c with
  | nil => exact absurd rfl hne
  | cons x xs =>
      simp [minedOk] at hc ⊢
      exact ⟨hc, hb⟩

/-- The conjunction preserved along every trace: chain integrity, the
difficulty of every mined block, and non-emptiness of the chain. -/
def ChainInv (st : LedgerState) : Prop :=
  chainOk st.chain = true ∧ minedOk st.chain = true ∧ st.chain ≠ []

theorem chainInv_init (gts : Nat) : ChainInv (initState gts) := by
  have hg : (create_genesis_block gts).hash = compute_hash (create_genesis_block gts) := by
    show compute_hash ⟨0, [], gts, ("0"), 0, ("")⟩ =
      compute_hash ⟨0, [], gts, ("0"), 0, compute_hash ⟨0, [], gts, ("0"), 0, ("")⟩⟩
    exact compute_hash_mk_hash _ _ _ _ _ _ _
  refine ⟨?_, rfl, by simp [initState]⟩
  show chainOk [create_genesis_block gts] = true
  simp [chainOk, hashesOk, linksOk, hg]

theorem chainInv_step (st : LedgerState) (op : Op) (h : ChainInv st) :
    ChainInv (step st op) := by
  obtain ⟨hok, hmined, hne⟩ := h
  cases op with
  | issue tid owner event ts =>
      exact ⟨by rw [step, issue_ticket_chain]; exact hok,
             by rw [step, issue_ticket_chain]; exact hmined,
             by rw [step, issue_ticket_chain]; exact hne⟩
  | transfer tid new_owner ts =>
      exact ⟨by rw [step, transfer_ticket_chain]; exact hok,
             by rw [step, transfer_ticket_chain]; exact hmined,
             by rw [step, transfer_ticket_chain]; exact hne⟩
  | redeem tid ts =>
      exact ⟨by rw [step, redeem_ticket_chain]; exact hok,
             by rw [step, redeem_ticket_chain]; exact hmined,
             by rw [step, redeem_ticket_chain]; exact hne⟩
  | verify tid => exact ⟨hok, hmined, hne⟩
  | mineOp ts fuel =>
      rw [step]
      cases hm : mine st ts fuel with
      | none => exact ⟨hok, hmined, hne⟩
      | some rs =>
          obtain ⟨r, st2⟩ := rs
          cases r with
          | nothingToMine =>
              have hst : st2 = st := by
                simp only [mine] at hm
                split at hm
                · simp at hm
                  exact hm.symm
                · split at hm
                  · simp at hm
                  · split at hm
                    · simp at hm
                    · simp at hm
              subst hst
              exact ⟨hok, hmined, hne⟩
          | mined b =>
              obtain ⟨last, n, hsh, hlast, hpow, hb, hst⟩ :=
                mine_mined_spec st ts fuel b st2 hm
              obtain ⟨-, hh, hgood, -⟩ := powLoop_spec _ fuel 0 n hsh hpow
              have hblc : compute_hash b = hsh := by
                rw [hb]
                have e1 : compute_hash
                    (⟨st.chain.length, st.pending_transactions, ts,
                      compute_hash last, n, hsh⟩ : Block) =
                    compute_hash ⟨st.chain.length, st.pending_transactions, ts,
                      compute_hash last, n, ("")⟩ :=
                  compute_hash_mk_hash _ _ _ _ _ _ _
                rw [e1, ← hashAtNonce_mk, ← hh]
              have hbh : b.hash = compute_hash b := by
                rw [hblc, hb]
              have hbprev : b.previous_hash = compute_hash last := by
                rw [hb]
              have hbgood : goodHash (compute_hash b) = true := by
                rw [hblc]; exact hgood
              subst hst
              simp only [chainOk, Bool.and_eq_true] at hok
              refine ⟨?_, ?_, by simp⟩
              · simp only [chainOk, Bool.and_eq_true]
                exact ⟨hashesOk_append _ _ hok.1 hbh,
                       linksOk_append _ last _ hok.2 hlast hbprev⟩
              · exact minedOk_append _ _ hmined hne hbgood

theorem chainInv_run (gts : Nat) (ops : List Op) :
    ChainInv (run (initState gts) ops) := by
  suffices hgen : ∀ st, ChainInv st → ChainInv (run st ops) from
    hgen _ (chainInv_init gts)
  induction ops with
  | nil => exact fun st h => h
  | cons op rest ih =>
      intro st h
      exact ih _ (chainInv_step st op h)

/-! ## Claim theorems -/

/-- C1: for every chain built by any sequence of ledger operations, every
block's stored hash equals `compute_hash` of its stored fields, and every
non-genesis block's stored `previous_hash` equals `compute_hash` of the
block immediately before it in the chain. -/
theorem chain_hashes_and_links_invariant (gts : Nat) (ops : List Op) :
    chainOk (run (initState gts) ops).chain = true :=
  (chainInv_run gts ops).1

/-- C4: in every reachable chain, every block appended by `mine` (everything
after the genesis block) has a `compute_hash` that starts with
`difficulty = 2` zero characters. -/
theorem mined_blocks_have_difficulty_zeros (gts : Nat) (ops : List Op) :
    minedOk (run (initState gts) ops).chain = true :=
  (chainInv_run gts ops).2.1

/-- The failure precondition shared by `transfer_ticket` and `redeem_ticket`:
the ticket id is absent from the registry, or its status is not `"valid"`. -/
def notValidAt (st : LedgerState) (tid : String) : Bool :=
  match lookupTicket st.tickets tid with
  | none => true
  | some t => t.status != ("valid")

/-- C3: on a ticket that is absent or not `"valid"`, `transfer_ticket` and
`redeem_ticket` both return `False` and leave the whole state (registry and
pending pool included) exactly unchanged. -/
theorem transfer_redeem_reject_missing_or_nonvalid (st : LedgerState)
    (tid new_owner : String) (ts1 ts2 : Nat) (h : notValidAt st tid = true) :
    transfer_ticket st tid new_owner ts1 = (false, st) ∧
    redeem_ticket st tid ts2 = (false, st) := by
  unfold notValidAt at h
  cases hl : lookupTicket st.tickets tid with
  | none => constructor <;> simp [transfer_ticket, redeem_ticket, hl]
  | some t =>
      rw [hl] at h
      have hs : t.status ≠ ("valid") := by simpa using h
      constructor <;> simp [transfer_ticket, redeem_ticket, hl, hs]

/-- Witness for C3 at a concrete state: the fresh ledger and an unknown id. -/
theorem transfer_redeem_reject_missing_witness :
    transfer_ticket (initState 3) ("x") ("b") 4 = (false, initState 3) ∧
    redeem_ticket (initState 3) ("x") 5 = (false, initState 3) :=
  transfer_redeem_reject_missing_or_nonvalid (initState 3) ("x") ("b") 4 5 (by decide)

/-- C6: `issue_ticket` returns the new ticket id and an immediately following
`verify_ticket` of that id sees status `"valid"` with the issued owner and
event, with no mining in between. -/
theorem issue_then_verify_returns_valid_entry (st : LedgerState)
    (tid owner event : String) (ts : Nat) :
    (issue_ticket st tid owner event ts).1 = tid ∧
    verify_ticket (issue_ticket st tid owner event ts).2 tid =
      some ⟨owner, ("valid"), event⟩ := by
  refine ⟨rfl, ?_⟩
  show lookupTicket (setTicket st.tickets tid ⟨owner, ("valid"), event⟩) tid = _
  exact lookupTicket_setTicket_self _ _ _

/-- C7: `mine` on an empty pending pool returns the nothing-to-mine signal
(Python's `False`), not a block, with the entire state unchanged. -/
theorem mine_empty_pool_is_no_op (st : LedgerState) (ts fuel : Nat)
    (h : st.pending_transactions = []) :
    mine st ts fuel = some (.nothingToMine, st) := by
  simp [mine, h]

/-- Witness for C7 at the freshly initialized ledger. -/
theorem mine_empty_pool_is_no_op_witness :
    mine (initState 1) 5 0 = some (.nothingToMine, initState 1) :=
  mine_empty_pool_is_no_op (initState 1) 5 0 rfl

/-- C9: when `proof_of_work` returns, the returned string is the block's hash
at the returned nonce, it meets the difficulty target, no smaller nonce
meets it (the search starts from 0 and increments by exactly 1), and the
nonce the block arrived with is irrelevant (it is reset to 0 first). -/
theorem proof_of_work_finds_least_nonce (b : Block) (fuel n : Nat) (hsh : String)
    (hp : proof_of_work b fuel = some (n, hsh)) :
    hsh = hashAtNonce b n ∧ goodHash hsh = true ∧
    (∀ m, m < n → goodHash (hashAtNonce b m) = false) ∧
    (∀ k, proof_of_work { b with nonce := k } fuel = proof_of_work b fuel) := by
  obtain ⟨-, hh, hg, hmin⟩ := powLoop_spec b fuel 0 n hsh hp
  exact ⟨hh, hg, fun m hm => hmin m (Nat.zero_le m) hm,
         fun k => powLoop_nonce_irrel b k fuel 0⟩

/-- A concrete block whose clock reading was chosen so that nonce 0 already
meets the difficulty target. -/
def wBlock9 : Block := ⟨5, [], 401, ("p"), 0, ("")⟩

set_option maxRecDepth 40000 in
/-- Witness for C9: the proof-of-work search on `wBlock9` succeeds at once. -/
theorem proof_of_work_finds_least_nonce_witness :
    ("00bbffc4daf59da979bfd2f4c357c2d9a943029d8c071524801969f537bcee1d") =
      hashAtNonce wBlock9 0 ∧
    goodHash ("00bbffc4daf59da979bfd2f4c357c2d9a943029d8c071524801969f537bcee1d") = true ∧
    (∀ m, m < 0 → goodHash (hashAtNonce wBlock9 m) = false) ∧
    (∀ k, proof_of_work { wBlock9 with nonce := k } 0 = proof_of_work wBlock9 0) :=
  proof_of_work_finds_least_nonce wBlock9 0 0
    (("00bbffc4daf59da979bfd2f4c357c2d9a943029d8c071524801969f537bcee1d"))
    (by decide)

/-- C2: on a non-empty pending pool, a returning `mine` call appends exactly
one block — the one it returns — whose index is the pre-call chain length
and whose transaction list is the pool in submission order, and clears the
pool. -/
theorem mine_nonempty_appends_exactly_one_block (st : LedgerState) (ts fuel : Nat)
    (r : MineResult) (st2 : LedgerState)
    (hne : st.pending_transactions ≠ [])
    (hm : mine st ts fuel = some (r, st2)) :
    ∃ b, r = .mined b ∧ st2.chain = st.chain ++ [b] ∧
      st2.chain.length = st.chain.length + 1 ∧
      st2.pending_transactions = [] ∧
      b.index = st.chain.length ∧
      b.transactions = st.pending_transactions := by
  cases r with
  | nothingToMine =>
      exfalso
      cases hlast : st.chain.getLast? with
      | none => simp [mine, hne, hlast] at hm
      | some last =>
          simp only [mine, if_neg hne, hlast] at hm
          cases hpow : proof_of_work ⟨st.chain.length, st.pending_transactions, ts,
              compute_hash last, 0, ("")⟩ fuel with
          | none => rw [hpow] at hm; simp at hm
          | some p =>
              obtain ⟨n, hsh⟩ := p
              rw [hpow] at hm
              simp at hm
  | mined b =>
      obtain ⟨last, n, hsh, hlast, hpow, hb, hst⟩ := mine_mined_spec st ts fuel b st2 hm
      subst hst
      refine ⟨b, rfl, rfl, by simp, rfl, ?_, ?_⟩
      · rw [hb]
      · rw [hb]

/-- The issue transaction of the mining witness. -/
def wIssueTx : TicketTransaction := ⟨("issue"), ("t1"), ("a"), some ("e"), none, 2⟩

/-- The genesis block of the mining witness ledger (clock reading 1). -/
def wGenesis : Block := create_genesis_block 1

/-- The witness ledger: one issued ticket sitting in the pending pool. -/
def wOne : LedgerState := (issue_ticket (initState 1) ("t1") ("a") ("e") 2).2

/-- The block the witness `mine` call produces: its clock reading 34 was
chosen so that nonce 0 already meets the difficulty target. -/
def wBlock : Block :=
  ⟨1, [wIssueTx], 34, compute_hash wGenesis, 0,
   ("00c873b498d0decfc6a3eb1c0b0788cfbcfe5f21d08185731c858ae3caffab0e")⟩

/-- The witness ledger after mining. -/
def wAfter : LedgerState :=
  ⟨[wGenesis, wBlock], [], [(("t1"), ⟨("a"), ("valid"), ("e")⟩)]⟩

set_option maxRecDepth 100000 in
/-- Witness for C2: mining the one-transaction pool at clock reading 34. -/
theorem mine_nonempty_appends_exactly_one_block_witness :
    ∃ b, MineResult.mined wBlock = .mined b ∧ wAfter.chain = wOne.chain ++ [b] ∧
      wAfter.chain.length = wOne.chain.length + 1 ∧
      wAfter.pending_transactions = [] ∧
      b.index = wOne.chain.length ∧
      b.transactions = wOne.pending_transactions :=
  mine_nonempty_appends_exactly_one_block wOne 34 0 (.mined wBlock) wAfter
    (by decide) (by decide)

/-- The freshness of each issued uuid: an `issue` operation's ticket id is
not yet in the registry (what `uuid.uuid4()` guarantees in the source). -/
def issueFresh (st : LedgerState) : Op → Bool
  | .issue tid _ _ _ => (lookupTicket st.tickets tid).isNone
  | _ => true

/-- C5: across any single ledger operation (with issue ids fresh), a ticket
present in the registry stays present, and a `"redeemed"` status stays
`"redeemed"`. -/
theorem registry_never_deletes_and_redeemed_is_terminal
    (st : LedgerState) (op : Op) (tid : String) (t : Ticket)
    (hf : issueFresh st op = true)
    (hl : lookupTicket st.tickets tid = some t) :
    ∃ t2, lookupTicket (step st op).tickets tid = some t2 ∧
      (t.status = ("redeemed") → t2.status = ("redeemed")) := by
  cases op with
  | issue tid2 owner event ts =>
      have hf2 : lookupTicket st.tickets tid2 = none := by
        simpa [issueFresh, Option.isNone_iff_eq_none] using hf
      have hne : tid ≠ tid2 := fun he => by
        rw [he, hf2] at hl; exact Option.noConfusion hl
      refine ⟨t, ?_, fun hr => hr⟩
      show lookupTicket (setTicket st.tickets tid2 ⟨owner, ("valid"), event⟩) tid = some t
      rw [lookupTicket_setTicket_ne _ _ _ _ hne]
      exact hl
  | transfer tid2 new_owner ts =>
      cases hl2 : lookupTicket st.tickets tid2 with
      | none =>
          refine ⟨t, ?_, fun hr => hr⟩
          show lookupTicket ((transfer_ticket st tid2 new_owner ts).2).tickets tid = some t
          simp only [transfer_ticket, hl2]
          exact hl
      | some u =>
          by_cases hs : u.status = ("valid")
          · have hcond : ¬(u.status ≠ ("valid")) := by simp [hs]
            by_cases he : tid = tid2
            · subst he
              rw [hl] at hl2
              have hut : t = u := Option.some.inj hl2
              subst hut
              refine ⟨⟨new_owner, t.status, t.event⟩, ?_, fun hr => hr⟩
              show lookupTicket ((transfer_ticket st tid new_owner ts).2).tickets tid = _
              simp only [transfer_ticket, hl, if_neg hcond, add_transaction]
              exact lookupTicket_setTicket_self _ _ _
            · refine ⟨t, ?_, fun hr => hr⟩
              show lookupTicket ((transfer_ticket st tid2 new_owner ts).2).tickets tid = some t
              simp only [transfer_ticket, hl2, if_neg hcond, add_transaction]
              rw [lookupTicket_setTicket_ne _ _ _ _ he]
              exact hl
          · refine ⟨t, ?_, fun hr => hr⟩
            show lookupTicket ((transfer_ticket st tid2 new_owner ts).2).tickets tid = some t
            simp only [transfer_ticket, hl2, if_pos hs]
            exact hl
  | redeem tid2 ts =>
      cases hl2 : lookupTicket st.tickets tid2 with
      | none =>
          refine ⟨t, ?_, fun hr => hr⟩
          show lookupTicket ((redeem_ticket st tid2 ts).2).tickets tid = some t
          simp only [redeem_ticket, hl2]
          exact hl
      | some u =>
          by_cases hs : u.status = ("valid")
          · have hcond : ¬(u.status ≠ ("valid")) := by simp [hs]
            by_cases he : tid = tid2
            · subst he
              rw [hl] at hl2
              have hut : t = u := Option.some.inj hl2
              subst hut
              refine ⟨⟨t.owner, ("redeemed"), t.event⟩, ?_, fun _ => rfl⟩
              show lookupTicket ((redeem_ticket st tid ts).2).tickets tid = _
              simp only [redeem_ticket, hl, if_neg hcond, add_transaction]
              exact lookupTicket_setTicket_self _ _ _
            · refine ⟨t, ?_, fun hr => hr⟩
              show lookupTicket ((redeem_ticket st tid2 ts).2).tickets tid = some t
              simp only [redeem_ticket, hl2, if_neg hcond, add_transaction]
              rw [lookupTicket_setTicket_ne _ _ _ _ he]
              exact hl
          · refine ⟨t, ?_, fun hr => hr⟩
            show lookupTicket ((redeem_ticket st tid2 ts).2).tickets tid = some t
            simp only [redeem_ticket, hl2, if_pos hs]
            exact hl
  | mineOp ts fuel =>
      refine ⟨t, ?_, fun hr => hr⟩
      simp only [step]
      cases hm : mine st ts fuel with
      | none => exact hl
      | some rs =>
          obtain ⟨r, st2⟩ := rs
          have ht := mine_tickets_eq st ts fuel r st2 hm
          show lookupTicket st2.tickets tid = some t
          rw [ht]
          exact hl
  | verify tid2 => exact ⟨t, hl, fun hr => hr⟩

/-- The C5 witness ledger: a registry holding one redeemed ticket. -/
def wSt5 : LedgerState :=
  ⟨[create_genesis_block 1], [], [(("t1"), ⟨("a"), ("redeemed"), ("e")⟩)]⟩

/-- Witness for C5: redeeming the already-redeemed ticket keeps it present
and redeemed. -/
theorem registry_never_deletes_witness :
    ∃ t2, lookupTicket (step wSt5 (.redeem ("t1") 7)).tickets ("t1") = some t2 ∧
      ((Ticket.mk ("a") ("redeemed") ("e")).status = ("redeemed") →
        t2.status = ("redeemed")) :=
  registry_never_deletes_and_redeemed_is_terminal wSt5 (.redeem ("t1") 7) ("t1")
    ⟨("a"), ("redeemed"), ("e")⟩ (by decide) (by decide)

/-- The effect of a successful transfer, shared by C8 and C10: exactly one
`transfer` record (carrying the pre-change owner and the destination) is
appended to the pool, and the registry entry keeps its status and event
while its owner becomes `new_owner`. -/
theorem transfer_ticket_valid_eq (st : LedgerState) (tid new_owner : String)
    (ts : Nat) (t : Ticket)
    (hl : lookupTicket st.tickets tid = some t) (hs : t.status = ("valid")) :
    transfer_ticket st tid new_owner ts =
      (true, ⟨st.chain,
              st.pending_transactions ++
                [⟨("transfer"), tid, t.owner, none, some new_owner, ts⟩],
              setTicket st.tickets tid ⟨new_owner, t.status, t.event⟩⟩) := by
  have hcond : ¬(t.status ≠ ("valid")) := by simp [hs]
  simp only [transfer_ticket, hl, if_neg hcond, add_transaction]

/-- C8: a successful `transfer_ticket` appends exactly one `transfer` record
whose `owner` is the pre-call owner and whose `new_owner` is the given
destination, replaces the registry owner, and leaves status and event
untouched. -/
theorem transfer_valid_success_effects (st : LedgerState) (tid new_owner : String)
    (ts : Nat) (t : Ticket)
    (hl : lookupTicket st.tickets tid = some t) (hs : t.status = ("valid")) :
    transfer_ticket st tid new_owner ts =
      (true, ⟨st.chain,
              st.pending_transactions ++
                [⟨("transfer"), tid, t.owner, none, some new_owner, ts⟩],
              setTicket st.tickets tid ⟨new_owner, t.status, t.event⟩⟩) :=
  transfer_ticket_valid_eq st tid new_owner ts t hl hs

/-- The C8/C10 witness ledger: a registry holding one valid ticket. -/
def wSt8 : LedgerState :=
  ⟨[create_genesis_block 1], [], [(("t1"), ⟨("a"), ("valid"), ("e")⟩)]⟩

/-- Witness for C8: transferring the valid ticket to `b`. -/
theorem transfer_valid_success_effects_witness :
    transfer_ticket wSt8 ("t1") ("b") 9 =
      (true, ⟨wSt8.chain,
              wSt8.pending_transactions ++
                [⟨("transfer"), ("t1"), ("a"), none, some ("b"), 9⟩],
              setTicket wSt8.tickets ("t1") ⟨("b"), ("valid"), ("e")⟩⟩) :=
  transfer_valid_success_effects wSt8 ("t1") ("b") 9 ⟨("a"), ("valid"), ("e")⟩
    (by decide) (by decide)

/-- C10: transferring a valid ticket to its current owner is not rejected:
it returns `True` and still appends a `transfer` record to the pool. -/
theorem transfer_to_same_owner_succeeds (st : LedgerState) (tid : String)
    (ts : Nat) (t : Ticket)
    (hl : lookupTicket st.tickets tid = some t) (hs : t.status = ("valid")) :
    (transfer_ticket st tid t.owner ts).1 = true ∧
    (transfer_ticket st tid t.owner ts).2.pending_transactions =
      st.pending_transactions ++
        [⟨("transfer"), tid, t.owner, none, some (t.owner), ts⟩] := by
  rw [transfer_ticket_valid_eq st tid t.owner ts t hl hs]
  exact ⟨rfl, rfl⟩

/-- Witness for C10: transferring the valid ticket to its current owner. -/
theorem transfer_to_same_owner_succeeds_witness :
    (transfer_ticket wSt8 ("t1") ("a") 9).1 = true ∧
    (transfer_ticket wSt8 ("t1") ("a") 9).2.pending_transactions =
      wSt8.pending_transactions ++
        [⟨("transfer"), ("t1"), ("a"), none, some ("a"), 9⟩] :=
  transfer_to_same_owner_succeeds wSt8 ("t1") 9 ⟨("a"), ("valid"), ("e")⟩
    (by decide) (by decide)
